import Mathlib

/-!
Verification of the password-derived EdDSA-style signing routine `sign`
(src/ed25519auth/sign.c) against its specification.

Bytes are modelled as natural numbers (< 256 for well-formed data) and byte
buffers as `List ℕ`.  The external collaborators declared in sha512.h /
ge.h / sc.h are not part of the two source files, so they are modelled from
the spec's collaborator contracts (§6): a 64-byte hash, base-point scalar
multiplication composed with point encoding, scalar reduction mod L and
scalar multiply-add mod L.
-/

/-- Group order of the Edwards-curve basepoint subgroup (the constant `L`
of the spec, `2^252 + 27742317777372353535851937790883648493`). -/
def L : ℕ := 2 ^ 252 + 27742317777372353535851937790883648493

/-- Value of a little-endian byte string. -/
def leNat : List ℕ → ℕ
  | [] => 0
  | b :: bs => b + 256 * leNat bs

/-- Little-endian encoding of a natural number on `k` bytes. -/
def natToBytes : ℕ → ℕ → List ℕ
  | 0, _ => []
  | k + 1, n => n % 256 :: natToBytes k (n / 256)

/-- Modelled from the spec: `ReduceScalar` (`sc_reduce` of sc.h, missing from
src/) reduces an integer given over 32 or 64 bytes modulo the group order `L`
to canonical little-endian form (32 bytes). -/
def sc_reduce (s : List ℕ) : List ℕ := natToBytes 32 (leNat s % L)

/-- Modelled from the spec: `MultiplyAdd` (`sc_muladd` of sc.h, missing from
src/) computes `(a·b + c) mod L` as a canonical 32-byte scalar. -/
def sc_muladd (a b c : List ℕ) : List ℕ :=
  natToBytes 32 ((leNat a * leNat b + leNat c) % L)

/-- In-place write of `src` into `buf` starting at offset `off`
(the `memmove`/`memcpy` calls of sign.c, which are always in bounds and
never overlapping source with destination). -/
def writeBytes (buf : List ℕ) (off : ℕ) (src : List ℕ) : List ℕ :=
  buf.take off ++ src ++ buf.drop (off + src.length)

/-- The clamping of the low scalar half performed by sign.c:
`az[0] &= 248; az[31] &= 63; az[31] |= 64`. -/
def clamp (az : List ℕ) : List ℕ :=
  let az1 := az.set 0 (az.getD 0 0 &&& 248)
  let az2 := az1.set 31 (az1.getD 31 0 &&& 63)
  az2.set 31 (az2.getD 31 0 ||| 64)

section SignDef

/- `hash` models `sha512` (contract: 64-byte output); `smbe` models
`ge_p3_tobytes ∘ ge_scalarmult_base` (contract: 32-byte compressed point
from a 32-byte little-endian scalar).  Both are external collaborators. -/
variable (hash smbe : List ℕ → List ℕ)

/-- `sha512(pw,pwlen,az)` followed by the three clamping stores. -/
def azBytes (pw : List ℕ) : List ℕ := clamp (hash pw)

/-- Buffer state after `memmove(buff + 64, m, 32)`; `buff0` is the
arbitrary initial content of the 96-byte local `buff`. -/
def buffMsg (buff0 m : List ℕ) : List ℕ := writeBytes buff0 64 m

/-- Buffer state after `memmove(buff + 32, az + 32, 32)`. -/
def buffPref (buff0 m pw : List ℕ) : List ℕ :=
  writeBytes (buffMsg buff0 m) 32 (((azBytes hash pw).drop 32).take 32)

/-- `sha512(buff + 32, 64, nonce)`: the 64-byte nonce hash. -/
def nonceHash (buff0 m pw : List ℕ) : List ℕ :=
  hash (((buffPref hash buff0 m pw).drop 32).take 64)

/-- Buffer state after `ge_scalarmult_base(&A,az); ge_p3_tobytes(buff+32,&A)`
(the encoded public point overwrites bytes 32..63). -/
def buffA (buff0 m pw : List ℕ) : List ℕ :=
  writeBytes (buffPref hash buff0 m pw) 32 (smbe ((azBytes hash pw).take 32))

/-- `sc_reduce(nonce)`: the canonical 32-byte nonce scalar. -/
def nonceRed (buff0 m pw : List ℕ) : List ℕ :=
  sc_reduce (nonceHash hash buff0 m pw)

/-- Buffer state after `ge_scalarmult_base(&R,nonce); ge_p3_tobytes(buff,&R)`
(the encoded commitment point occupies bytes 0..31). -/
def buffR (buff0 m pw : List ℕ) : List ℕ :=
  writeBytes (buffA hash smbe buff0 m pw) 0 (smbe (nonceRed hash buff0 m pw))

/-- The 96 bytes fed to the challenge hash by `sha512(buff,96,hram)`. -/
def hramInput (buff0 m pw : List ℕ) : List ℕ :=
  (buffR hash smbe buff0 m pw).take 96

/-- `sha512(buff,96,hram); sc_reduce(hram)`: the canonical challenge scalar. -/
def hramRed (buff0 m pw : List ℕ) : List ℕ :=
  sc_reduce (hash (hramInput hash smbe buff0 m pw))

/-- The writes into the caller's signature buffer `sm`:
`memcpy(sm, buff, 32)` then `sc_muladd(sm + 32, hram, az, nonce)`;
`sm0` is the arbitrary initial content of `sm`. -/
def signSm (buff0 sm0 m pw : List ℕ) : List ℕ :=
  writeBytes (writeBytes sm0 0 ((buffR hash smbe buff0 m pw).take 32)) 32
    (sc_muladd (hramRed hash smbe buff0 m pw) ((azBytes hash pw).take 32)
      (nonceRed hash buff0 m pw))

/-- The signing routine `sign` of sign.c: the 64-byte signature produced for
digest `m` and password `pw` (local buffers start in a fixed state; the
theorems below show the output does not depend on that choice). -/
def sign (m pw : List ℕ) : List ℕ :=
  signSm hash smbe (List.replicate 96 0) (List.replicate 64 0) m pw

end SignDef

/-! ### Concrete collaborator instances used to exhibit witnesses -/

/-- A concrete stand-in satisfying the 64-byte hash contract, used to
evaluate the development on closed inputs. -/
def hash0 : List ℕ → List ℕ :=
  fun l => List.replicate 64 ((l.length + l.sum) % 256)

/-- A concrete stand-in satisfying the 32-byte point-encoding contract. -/
def smbe0 : List ℕ → List ℕ := fun s => natToBytes 32 (leNat s)

instance : NeZero L := ⟨by decide⟩

/-- Concrete point encoding for the group instance `ZMod L`. -/
def enc0 : ZMod L → List ℕ := fun g => natToBytes 32 g.val

/-- The scalar-multiply-base-and-encode collaborator induced by a group
`G` with basepoint `B` and encoding `enc`. -/
def smbeOf {G : Type} [AddCommGroup G] (B : G) (enc : G → List ℕ) :
    List ℕ → List ℕ :=
  fun s => enc (leNat s • B)

/-- The all-zero 32-byte digest used as a concrete input. -/
def mzero : List ℕ := List.replicate 32 0

/-! ### Arithmetic facts about the byte model -/

theorem length_natToBytes (k n : ℕ) : (natToBytes k n).length = k := by
  induction k generalizing n with
  | zero => rfl
  | succ k ih => simp [natToBytes, ih]

theorem leNat_natToBytes (k n : ℕ) : leNat (natToBytes k n) = n % 256 ^ k := by
  induction k generalizing n with
  | zero => simp [natToBytes, leNat, Nat.mod_one]
  | succ k ih => rw [natToBytes, leNat, ih, pow_succ', Nat.mod_mul]

theorem L_pos : 0 < L := by decide

theorem L_lt_pow : L < 256 ^ 32 := by decide

theorem length_sc_reduce (s : List ℕ) : (sc_reduce s).length = 32 :=
  length_natToBytes 32 _

theorem leNat_sc_reduce (s : List ℕ) : leNat (sc_reduce s) = leNat s % L := by
  rw [sc_reduce, leNat_natToBytes,
    Nat.mod_eq_of_lt (lt_trans (Nat.mod_lt _ L_pos) L_lt_pow)]

theorem sc_reduce_lt_L (s : List ℕ) : leNat (sc_reduce s) < L := by
  rw [leNat_sc_reduce]; exact Nat.mod_lt _ L_pos

theorem length_sc_muladd (a b c : List ℕ) : (sc_muladd a b c).length = 32 :=
  length_natToBytes 32 _

theorem leNat_sc_muladd (a b c : List ℕ) :
    leNat (sc_muladd a b c) = (leNat a * leNat b + leNat c) % L := by
  rw [sc_muladd, leNat_natToBytes,
    Nat.mod_eq_of_lt (lt_trans (Nat.mod_lt _ L_pos) L_lt_pow)]

/-! ### Clamping -/

theorem length_clamp (l : List ℕ) : (clamp l).length = l.length := by
  simp [clamp]

theorem clamp_drop32 (l : List ℕ) : (clamp l).drop 32 = l.drop 32 := by
  simp only [clamp]
  rw [List.drop_set_of_lt _ _ (by norm_num : (31:ℕ) < 32),
    List.drop_set_of_lt _ _ (by norm_num : (31:ℕ) < 32),
    List.drop_set_of_lt _ _ (by norm_num : (0:ℕ) < 32)]

/-! ### Buffer write characterization -/

/-- A `writeBytes` whose span exactly covers the middle block of a
three-block decomposition replaces that block. -/
theorem writeBytes_append_mid (p q r src : List ℕ) (hp : p.length = off)
    (hq : src.length = q.length) :
    writeBytes (p ++ (q ++ r)) off src = p ++ (src ++ r) := by
  unfold writeBytes
  rw [← hp, List.take_left' rfl, hq, ← List.drop_drop, List.drop_left' rfl,
    List.drop_left' rfl, List.append_assoc]

section Charact

variable {hash smbe : List ℕ → List ℕ} {buff0 sm0 m pw : List ℕ}

theorem buffMsg_eq (hm : m.length = 32) (hb : buff0.length = 96) :
    buffMsg buff0 m = buff0.take 64 ++ m := by
  have h : buff0 = buff0.take 64 ++ (buff0.drop 64 ++ []) := by
    rw [List.append_nil, List.take_append_drop]
  rw [buffMsg]
  conv_lhs => rw [h]
  rw [writeBytes_append_mid _ _ _ _ (by simp [hb]) (by simp [hm, hb]),
    List.append_nil]

theorem buffPref_eq (hH : ∀ x, (hash x).length = 64) (hm : m.length = 32)
    (hb : buff0.length = 96) :
    buffPref hash buff0 m pw = buff0.take 32 ++ ((hash pw).drop 32 ++ m) := by
  have hsrc : ((azBytes hash pw).drop 32).take 32 = (hash pw).drop 32 := by
    rw [azBytes, clamp_drop32]
    exact List.take_of_length_le (by simp [hH pw])
  have hsplit : buff0.take 64 ++ m
      = buff0.take 32 ++ ((buff0.take 64).drop 32 ++ m) := by
    rw [← List.append_assoc]
    congr 1
    rw [show List.take 32 buff0 = List.take 32 (List.take 64 buff0) by
        rw [List.take_take]; norm_num,
      List.take_append_drop]
  rw [buffPref, buffMsg_eq hm hb, hsrc]
  conv_lhs => rw [hsplit]
  rw [writeBytes_append_mid _ _ _ _ (by simp [hb]) (by simp [hH pw, hb])]

theorem nonceHash_eq (hH : ∀ x, (hash x).length = 64) (hm : m.length = 32)
    (hb : buff0.length = 96) :
    nonceHash hash buff0 m pw = hash ((hash pw).drop 32 ++ m) := by
  rw [nonceHash, buffPref_eq hH hm hb, List.drop_left' (by simp [hb]),
    List.take_of_length_le (by simp [hH pw, hm])]

theorem buffA_eq (hH : ∀ x, (hash x).length = 64)
    (hS : ∀ x, (smbe x).length = 32) (hm : m.length = 32)
    (hb : buff0.length = 96) :
    buffA hash smbe buff0 m pw
      = buff0.take 32 ++ (smbe ((azBytes hash pw).take 32) ++ m) := by
  rw [buffA, buffPref_eq hH hm hb,
    writeBytes_append_mid _ _ _ _ (by simp [hb]) (by simp [hS, hH pw])]

theorem buffR_eq (hH : ∀ x, (hash x).length = 64)
    (hS : ∀ x, (smbe x).length = 32) (hm : m.length = 32)
    (hb : buff0.length = 96) :
    buffR hash smbe buff0 m pw
      = smbe (nonceRed hash buff0 m pw)
        ++ (smbe ((azBytes hash pw).take 32) ++ m) := by
  have h : buffA hash smbe buff0 m pw
      = [] ++ (buff0.take 32 ++ (smbe ((azBytes hash pw).take 32) ++ m)) := by
    rw [List.nil_append, buffA_eq hH hS hm hb]
  rw [buffR, h,
    writeBytes_append_mid _ _ _ _ (show ([] : List ℕ).length = 0 from rfl)
      (by simp [hS, hb]),
    List.nil_append]

theorem length_buffR (hH : ∀ x, (hash x).length = 64)
    (hS : ∀ x, (smbe x).length = 32) (hm : m.length = 32)
    (hb : buff0.length = 96) :
    (buffR hash smbe buff0 m pw).length = 96 := by
  rw [buffR_eq hH hS hm hb]
  simp [hS, hm]

theorem hramInput_eq (hH : ∀ x, (hash x).length = 64)
    (hS : ∀ x, (smbe x).length = 32) (hm : m.length = 32)
    (hb : buff0.length = 96) :
    hramInput hash smbe buff0 m pw
      = smbe (nonceRed hash buff0 m pw)
        ++ (smbe ((azBytes hash pw).take 32) ++ m) := by
  rw [hramInput,
    List.take_of_length_le (le_of_eq (length_buffR hH hS hm hb)),
    buffR_eq hH hS hm hb]

theorem signSm_eq (hH : ∀ x, (hash x).length = 64)
    (hS : ∀ x, (smbe x).length = 32) (hm : m.length = 32)
    (hb : buff0.length = 96) (hsm : 64 ≤ sm0.length) :
    signSm hash smbe buff0 sm0 m pw
      = smbe (nonceRed hash buff0 m pw)
        ++ (sc_muladd (hramRed hash smbe buff0 m pw)
              ((azBytes hash pw).take 32) (nonceRed hash buff0 m pw)
            ++ sm0.drop 64) := by
  have hR32 : (buffR hash smbe buff0 m pw).take 32
      = smbe (nonceRed hash buff0 m pw) := by
    rw [buffR_eq hH hS hm hb, List.take_left' (hS _)]
  have hsm0 : sm0 = [] ++ (sm0.take 32 ++ sm0.drop 32) := by
    rw [List.nil_append, List.take_append_drop]
  have hinner : writeBytes sm0 0 ((buffR hash smbe buff0 m pw).take 32)
      = smbe (nonceRed hash buff0 m pw) ++ sm0.drop 32 := by
    conv_lhs => rw [hsm0]
    rw [writeBytes_append_mid _ _ _ _ (show ([] : List ℕ).length = 0 from rfl)
        (by rw [hR32, hS]; simp; omega),
      List.nil_append, hR32]
  have hsplit : smbe (nonceRed hash buff0 m pw) ++ sm0.drop 32
      = smbe (nonceRed hash buff0 m pw)
        ++ ((sm0.drop 32).take 32 ++ sm0.drop 64) := by
    rw [show sm0.drop 64 = (sm0.drop 32).drop 32 by rw [List.drop_drop],
      List.take_append_drop]
  rw [signSm, hinner, hsplit,
    writeBytes_append_mid _ _ _ _ (hS _) (by simp [length_sc_muladd]; omega)]

theorem sign_eq (hH : ∀ x, (hash x).length = 64)
    (hS : ∀ x, (smbe x).length = 32) (hm : m.length = 32) :
    sign hash smbe m pw
      = smbe (nonceRed hash (List.replicate 96 0) m pw)
        ++ sc_muladd (hramRed hash smbe (List.replicate 96 0) m pw)
              ((azBytes hash pw).take 32)
              (nonceRed hash (List.replicate 96 0) m pw) := by
  rw [sign, signSm_eq hH hS hm (by simp) (by simp)]
  simp

end Charact

/-! ### Byte access through clamping -/

theorem getD_take {l : List ℕ} {i n : ℕ} (h : i < n) :
    (l.take n).getD i 0 = l.getD i 0 := by
  rw [List.getD_eq_getElem?_getD, List.getElem?_take_of_lt h,
    ← List.getD_eq_getElem?_getD]

theorem clamp_getD0 (l : List ℕ) (hl : 0 < l.length) :
    (clamp l).getD 0 0 = l.getD 0 0 &&& 248 := by
  simp only [clamp]
  rw [List.getD_eq_getElem?_getD, List.getElem?_set_ne (by norm_num),
    List.getElem?_set_ne (by norm_num),
    List.getElem?_set_self hl]
  rfl

theorem clamp_getD31 (l : List ℕ) (hl : 31 < l.length) :
    (clamp l).getD 31 0 = (l.getD 31 0 &&& 63) ||| 64 := by
  have h1 : (l.set 0 (l.getD 0 0 &&& 248)).getD 31 0 = l.getD 31 0 := by
    rw [List.getD_eq_getElem?_getD, List.getElem?_set_ne (by norm_num),
      ← List.getD_eq_getElem?_getD]
  simp only [clamp]
  rw [List.getD_eq_getElem?_getD, List.getElem?_set_self (by simpa using hl),
    Option.getD_some, List.getD_eq_getElem?_getD,
    List.getElem?_set_self (by simpa using hl), Option.getD_some, h1]

/-! ### Bit-level consequences of clamping -/

theorem testBit_and248 (x i : ℕ) (h : i < 3) : (x &&& 248).testBit i = false := by
  have h248 : (248:ℕ).testBit i = false := by
    interval_cases i <;> decide
  rw [Nat.testBit_land, h248, Bool.and_false]

theorem testBit7_clamped (x : ℕ) : ((x &&& 63) ||| 64).testBit 7 = false := by
  have h63 : (63:ℕ).testBit 7 = false := by decide
  have h64 : (64:ℕ).testBit 7 = false := by decide
  rw [Nat.testBit_lor, Nat.testBit_land, h63, h64, Bool.and_false,
    Bool.or_false]

theorem testBit6_clamped (x : ℕ) : ((x &&& 63) ||| 64).testBit 6 = true := by
  have h64 : (64:ℕ).testBit 6 = true := by decide
  rw [Nat.testBit_lor, h64, Bool.or_true]

theorem clamped31_ge_64 (x : ℕ) : 64 ≤ (x &&& 63) ||| 64 := by
  have h : ((x &&& 63) ||| 64) &&& 64 = 64 := by
    apply Nat.eq_of_testBit_eq
    intro i
    rw [Nat.testBit_land, Nat.testBit_lor]
    cases h64 : (64:ℕ).testBit i
    · simp
    · simp
  calc (64:ℕ) = ((x &&& 63) ||| 64) &&& 64 := h.symm
    _ ≤ (x &&& 63) ||| 64 := Nat.and_le_left

theorem getD_mul_le_leNat (i : ℕ) (l : List ℕ) :
    l.getD i 0 * 256 ^ i ≤ leNat l := by
  induction i generalizing l with
  | zero =>
      cases l with
      | nil => simp [leNat]
      | cons b bs => simp [leNat, List.getD_cons_zero]
  | succ i ih =>
      cases l with
      | nil => simp [leNat]
      | cons b bs =>
          simp only [leNat, List.getD_cons_succ]
          calc bs.getD i 0 * 256 ^ (i + 1)
              = 256 * (bs.getD i 0 * 256 ^ i) := by ring
            _ ≤ 256 * leNat bs := Nat.mul_le_mul_left _ (ih bs)
            _ ≤ b + 256 * leNat bs := Nat.le_add_left _ _

/-! ### Scalar multiples of a point of order dividing L -/

theorem nsmul_mod_L {G : Type} [AddCommGroup G] (B : G) (hB : L • B = 0)
    (n : ℕ) : (n % L) • B = n • B := by
  conv_rhs => rw [← Nat.div_add_mod n L]
  rw [add_nsmul, mul_nsmul, hB, smul_zero, zero_add]

theorem muladd_smul {G : Type} [AddCommGroup G] (B : G) (hB : L • B = 0)
    (h a r : ℕ) : ((h * a + r) % L) • B = r • B + h • (a • B) := by
  rw [nsmul_mod_L B hB, add_nsmul, show h * a = a * h from mul_comm h a,
    mul_nsmul, add_comm]

/-! ### Claim theorems -/

/-- C4: for every password (any byte list, including the empty one), the
secret scalar produced by key derivation — the low 32 bytes of the clamped
password hash — has the low 3 bits of byte 0 cleared, bit 7 of byte 31
cleared, and bit 6 of byte 31 set. -/
theorem sign_clamp_invariants (hash : List ℕ → List ℕ) (pw : List ℕ)
    (hH : ∀ x, (hash x).length = 64) :
    (((azBytes hash pw).take 32).getD 0 0).testBit 0 = false ∧
    (((azBytes hash pw).take 32).getD 0 0).testBit 1 = false ∧
    (((azBytes hash pw).take 32).getD 0 0).testBit 2 = false ∧
    (((azBytes hash pw).take 32).getD 31 0).testBit 7 = false ∧
    (((azBytes hash pw).take 32).getD 31 0).testBit 6 = true := by
  have hl : 31 < (hash pw).length := by rw [hH pw]; norm_num
  have h0 : ((azBytes hash pw).take 32).getD 0 0
      = (hash pw).getD 0 0 &&& 248 := by
    rw [getD_take (by norm_num), azBytes,
      clamp_getD0 _ (lt_trans (by norm_num) hl)]
  have h31 : ((azBytes hash pw).take 32).getD 31 0
      = ((hash pw).getD 31 0 &&& 63) ||| 64 := by
    rw [getD_take (by norm_num), azBytes, clamp_getD31 _ hl]
  refine ⟨?_, ?_, ?_, ?_, ?_⟩
  · rw [h0]; exact testBit_and248 _ 0 (by norm_num)
  · rw [h0]; exact testBit_and248 _ 1 (by norm_num)
  · rw [h0]; exact testBit_and248 _ 2 (by norm_num)
  · rw [h31]; exact testBit7_clamped _
  · rw [h31]; exact testBit6_clamped _

/-- Witness for C4 at the concrete hash instance and empty password. -/
theorem sign_clamp_invariants_witness :
    (((azBytes hash0 []).take 32).getD 0 0).testBit 0 = false ∧
    (((azBytes hash0 []).take 32).getD 0 0).testBit 1 = false ∧
    (((azBytes hash0 []).take 32).getD 0 0).testBit 2 = false ∧
    (((azBytes hash0 []).take 32).getD 31 0).testBit 7 = false ∧
    (((azBytes hash0 []).take 32).getD 31 0).testBit 6 = true :=
  sign_clamp_invariants hash0 [] (fun x => by simp [hash0])

/-- C5 as stated is false: at the multiply-add the secret-scalar operand is
the clamped value, whose bit 254 is set, so it is not reduced mod `L`;
concretely, with the collaborator instance `hash0` and the empty password it
equals `2^254 > L`. -/
theorem secretScalar_not_canonical :
    ¬ leNat ((azBytes hash0 []).take 32) < L := by decide

/-- C5 amended: at the multiply-add the challenge scalar and the nonce are
canonical (strictly less than `L`), while the secret-scalar operand is the
clamped value, which is at least `2^254` and hence at least `L` (it is never
reduced). -/
theorem muladd_operands (hash smbe : List ℕ → List ℕ) (m pw : List ℕ)
    (hH : ∀ x, (hash x).length = 64) :
    leNat (hramRed hash smbe (List.replicate 96 0) m pw) < L ∧
    leNat (nonceRed hash (List.replicate 96 0) m pw) < L ∧
    L ≤ leNat ((azBytes hash pw).take 32) := by
  refine ⟨?_, ?_, ?_⟩
  · rw [hramRed]; exact sc_reduce_lt_L _
  · rw [nonceRed]; exact sc_reduce_lt_L _
  · have hl : 31 < (hash pw).length := by rw [hH pw]; norm_num
    have h31 : ((azBytes hash pw).take 32).getD 31 0
        = ((hash pw).getD 31 0 &&& 63) ||| 64 := by
      rw [getD_take (by norm_num), azBytes, clamp_getD31 _ hl]
    calc L ≤ 64 * 256 ^ 31 := by decide
      _ ≤ ((azBytes hash pw).take 32).getD 31 0 * 256 ^ 31 := by
          rw [h31]; exact Nat.mul_le_mul_right _ (clamped31_ge_64 _)
      _ ≤ leNat ((azBytes hash pw).take 32) := getD_mul_le_leNat _ _

/-- Witness for the amended C5 at the concrete collaborator instances. -/
theorem muladd_operands_witness :
    leNat (hramRed hash0 smbe0 (List.replicate 96 0) mzero []) < L ∧
    leNat (nonceRed hash0 (List.replicate 96 0) mzero []) < L ∧
    L ≤ leNat ((azBytes hash0 []).take 32) :=
  muladd_operands hash0 smbe0 mzero [] (fun x => by simp [hash0])

/-- C2: the last 32 bytes of the signature are exactly the
multiply-add-and-reduce output `(challenge·secret + nonce) mod L`, and they
occupy bytes 32..63 of the 64-byte output. -/
theorem sign_response_scalar (hash smbe : List ℕ → List ℕ) (m pw : List ℕ)
    (hH : ∀ x, (hash x).length = 64) (hS : ∀ x, (smbe x).length = 32)
    (hm : m.length = 32) :
    (sign hash smbe m pw).drop 32
      = sc_muladd (hramRed hash smbe (List.replicate 96 0) m pw)
          ((azBytes hash pw).take 32)
          (nonceRed hash (List.replicate 96 0) m pw) ∧
    leNat ((sign hash smbe m pw).drop 32)
      = (leNat (hramRed hash smbe (List.replicate 96 0) m pw)
          * leNat ((azBytes hash pw).take 32)
          + leNat (nonceRed hash (List.replicate 96 0) m pw)) % L ∧
    (sign hash smbe m pw).length = 64 := by
  have h1 : (sign hash smbe m pw).drop 32
      = sc_muladd (hramRed hash smbe (List.replicate 96 0) m pw)
          ((azBytes hash pw).take 32)
          (nonceRed hash (List.replicate 96 0) m pw) := by
    rw [sign_eq hH hS hm, List.drop_left' (hS _)]
  refine ⟨h1, ?_, ?_⟩
  · rw [h1, leNat_sc_muladd]
  · rw [sign_eq hH hS hm]; simp [hS, length_sc_muladd]

/-- Witness for C2 at the concrete collaborator instances. -/
theorem sign_response_scalar_witness :
    (sign hash0 smbe0 mzero []).drop 32
      = sc_muladd (hramRed hash0 smbe0 (List.replicate 96 0) mzero [])
          ((azBytes hash0 []).take 32)
          (nonceRed hash0 (List.replicate 96 0) mzero []) ∧
    leNat ((sign hash0 smbe0 mzero []).drop 32)
      = (leNat (hramRed hash0 smbe0 (List.replicate 96 0) mzero [])
          * leNat ((azBytes hash0 []).take 32)
          + leNat (nonceRed hash0 (List.replicate 96 0) mzero [])) % L ∧
    (sign hash0 smbe0 mzero []).length = 64 :=
  sign_response_scalar hash0 smbe0 mzero [] (fun x => by simp [hash0])
    (fun x => by simp [smbe0, length_natToBytes]) (by simp [mzero])

/-- C3: the input of the challenge hash is exactly the 96-byte
concatenation commitment ‖ public point ‖ digest — the encoded public point
having fully overwritten the prefix bytes previously held at offsets
32..63 — and the challenge scalar is that hash reduced mod `L`. -/
theorem challenge_input_layout (hash smbe : List ℕ → List ℕ) (m pw : List ℕ)
    (hH : ∀ x, (hash x).length = 64) (hS : ∀ x, (smbe x).length = 32)
    (hm : m.length = 32) :
    hramInput hash smbe (List.replicate 96 0) m pw
      = smbe (nonceRed hash (List.replicate 96 0) m pw)
        ++ (smbe ((azBytes hash pw).take 32) ++ m) ∧
    (hramInput hash smbe (List.replicate 96 0) m pw).length = 96 ∧
    leNat (hramRed hash smbe (List.replicate 96 0) m pw)
      = leNat (hash (hramInput hash smbe (List.replicate 96 0) m pw)) % L := by
  refine ⟨hramInput_eq hH hS hm (by simp), ?_, ?_⟩
  · rw [hramInput_eq hH hS hm (by simp)]; simp [hS, hm]
  · rw [hramRed]; exact leNat_sc_reduce _

/-- Witness for C3 at the concrete collaborator instances. -/
theorem challenge_input_layout_witness :
    hramInput hash0 smbe0 (List.replicate 96 0) mzero []
      = smbe0 (nonceRed hash0 (List.replicate 96 0) mzero [])
        ++ (smbe0 ((azBytes hash0 []).take 32) ++ mzero) ∧
    (hramInput hash0 smbe0 (List.replicate 96 0) mzero []).length = 96 ∧
    leNat (hramRed hash0 smbe0 (List.replicate 96 0) mzero [])
      = leNat (hash0 (hramInput hash0 smbe0 (List.replicate 96 0) mzero []))
          % L :=
  challenge_input_layout hash0 smbe0 mzero [] (fun x => by simp [hash0])
    (fun x => by simp [smbe0, length_natToBytes]) (by simp [mzero])

/-- C7: the nonce equals the hash of prefixHalf ‖ digest reduced mod `L`,
and depends only on those 64 bytes: two passwords whose hashes agree on the
upper 32 bytes yield the same nonce for the same digest, regardless of the
initial buffer contents. -/
theorem nonce_derivation (hash : List ℕ → List ℕ)
    (b0 b0' m pw1 pw2 : List ℕ)
    (hH : ∀ x, (hash x).length = 64) (hm : m.length = 32)
    (hb : b0.length = 96) (hb' : b0'.length = 96)
    (hpp : (hash pw1).drop 32 = (hash pw2).drop 32) :
    nonceRed hash b0 m pw1 = sc_reduce (hash ((hash pw1).drop 32 ++ m)) ∧
    nonceRed hash b0 m pw1 = nonceRed hash b0' m pw2 := by
  have h1 : nonceRed hash b0 m pw1
      = sc_reduce (hash ((hash pw1).drop 32 ++ m)) := by
    rw [nonceRed, nonceHash_eq hH hm hb]
  have h2 : nonceRed hash b0' m pw2
      = sc_reduce (hash ((hash pw2).drop 32 ++ m)) := by
    rw [nonceRed, nonceHash_eq hH hm hb']
  exact ⟨h1, by rw [h1, h2, hpp]⟩

/-- Witness for C7: two distinct passwords whose `hash0` images agree. -/
theorem nonce_derivation_witness :
    nonceRed hash0 (List.replicate 96 0) mzero [0, 1]
      = sc_reduce (hash0 ((hash0 [0, 1]).drop 32 ++ mzero)) ∧
    nonceRed hash0 (List.replicate 96 0) mzero [0, 1]
      = nonceRed hash0 (List.replicate 96 255) mzero [1, 0] :=
  nonce_derivation hash0 (List.replicate 96 0) (List.replicate 96 255)
    mzero [0, 1] [1, 0] (fun x => by simp [hash0]) (by simp [mzero])
    (by simp) (by simp) (by decide)

/-- C8: for every password and 32-byte digest the output is exactly 64
bytes, commitment ‖ response: the first 32 bytes are the encoding of the
reduced nonce multiplied by the basepoint, the last 32 the response
scalar. -/
theorem signature_layout {G : Type} [AddCommGroup G] (B : G)
    (enc : G → List ℕ) (hash : List ℕ → List ℕ) (m pw : List ℕ)
    (hH : ∀ x, (hash x).length = 64) (hEnc : ∀ g, (enc g).length = 32)
    (hm : m.length = 32) :
    (sign hash (smbeOf B enc) m pw).length = 64 ∧
    (sign hash (smbeOf B enc) m pw).take 32
      = enc (leNat (nonceRed hash (List.replicate 96 0) m pw) • B) ∧
    (sign hash (smbeOf B enc) m pw).drop 32
      = sc_muladd (hramRed hash (smbeOf B enc) (List.replicate 96 0) m pw)
          ((azBytes hash pw).take 32)
          (nonceRed hash (List.replicate 96 0) m pw) := by
  have hS : ∀ x, (smbeOf B enc x).length = 32 := fun x => hEnc _
  refine ⟨?_, ?_, ?_⟩
  · rw [sign_eq hH hS hm]; simp [hS, length_sc_muladd]
  · rw [sign_eq hH hS hm, List.take_left' (hS _)]; rfl
  · rw [sign_eq hH hS hm, List.drop_left' (hS _)]

/-- Witness for C8 in the group `ZMod L` with basepoint `1`. -/
theorem signature_layout_witness :
    (sign hash0 (smbeOf (1 : ZMod L) enc0) mzero []).length = 64 ∧
    (sign hash0 (smbeOf (1 : ZMod L) enc0) mzero []).take 32
      = enc0 (leNat (nonceRed hash0 (List.replicate 96 0) mzero [])
          • (1 : ZMod L)) ∧
    (sign hash0 (smbeOf (1 : ZMod L) enc0) mzero []).drop 32
      = sc_muladd
          (hramRed hash0 (smbeOf (1 : ZMod L) enc0)
            (List.replicate 96 0) mzero [])
          ((azBytes hash0 []).take 32)
          (nonceRed hash0 (List.replicate 96 0) mzero []) :=
  signature_layout (1 : ZMod L) enc0 hash0 mzero []
    (fun x => by simp [hash0]) (fun g => by simp [enc0, length_natToBytes])
    (by simp [mzero])

/-- C1: the signature satisfies the EdDSA signing and verification
equations: writing the output as `R ‖ s`, the first 32 bytes encode the
commitment `r·B`, the response satisfies `s = (h·a + r) mod L` with `h` the
reduced challenge, `a` the clamped secret scalar and `r` the reduced nonce,
and in the group `s·B = r·B + h·(a·B)`, which is what a standards-conformant
verifier with public key `A = a·B` checks. -/
theorem sign_verification_equation {G : Type} [AddCommGroup G] (B : G)
    (enc : G → List ℕ) (hash : List ℕ → List ℕ) (m pw : List ℕ)
    (hB : L • B = 0) (hH : ∀ x, (hash x).length = 64)
    (hEnc : ∀ g, (enc g).length = 32) (hm : m.length = 32) :
    (sign hash (smbeOf B enc) m pw).take 32
      = enc (leNat (nonceRed hash (List.replicate 96 0) m pw) • B) ∧
    leNat ((sign hash (smbeOf B enc) m pw).drop 32)
      = (leNat (hramRed hash (smbeOf B enc) (List.replicate 96 0) m pw)
          * leNat ((azBytes hash pw).take 32)
          + leNat (nonceRed hash (List.replicate 96 0) m pw)) % L ∧
    leNat ((sign hash (smbeOf B enc) m pw).drop 32) • B
      = leNat (nonceRed hash (List.replicate 96 0) m pw) • B
        + leNat (hramRed hash (smbeOf B enc) (List.replicate 96 0) m pw)
          • (leNat ((azBytes hash pw).take 32) • B) := by
  have hS : ∀ x, (smbeOf B enc x).length = 32 := fun x => hEnc _
  have hdrop : leNat ((sign hash (smbeOf B enc) m pw).drop 32)
      = (leNat (hramRed hash (smbeOf B enc) (List.replicate 96 0) m pw)
          * leNat ((azBytes hash pw).take 32)
          + leNat (nonceRed hash (List.replicate 96 0) m pw)) % L := by
    rw [sign_eq hH hS hm, List.drop_left' (hS _), leNat_sc_muladd]
  refine ⟨?_, hdrop, ?_⟩
  · rw [sign_eq hH hS hm, List.take_left' (hS _)]; rfl
  · rw [hdrop, muladd_smul B hB]

/-- Witness for C1 in the group `ZMod L` with basepoint `1`, whose order
divides `L`. -/
theorem sign_verification_equation_witness :
    (sign hash0 (smbeOf (1 : ZMod L) enc0) mzero []).take 32
      = enc0 (leNat (nonceRed hash0 (List.replicate 96 0) mzero [])
          • (1 : ZMod L)) ∧
    leNat ((sign hash0 (smbeOf (1 : ZMod L) enc0) mzero []).drop 32)
      = (leNat (hramRed hash0 (smbeOf (1 : ZMod L) enc0)
            (List.replicate 96 0) mzero [])
          * leNat ((azBytes hash0 []).take 32)
          + leNat (nonceRed hash0 (List.replicate 96 0) mzero [])) % L ∧
    leNat ((sign hash0 (smbeOf (1 : ZMod L) enc0) mzero []).drop 32)
        • (1 : ZMod L)
      = leNat (nonceRed hash0 (List.replicate 96 0) mzero [])
          • (1 : ZMod L)
        + leNat (hramRed hash0 (smbeOf (1 : ZMod L) enc0)
            (List.replicate 96 0) mzero [])
          • (leNat ((azBytes hash0 []).take 32) • (1 : ZMod L)) :=
  sign_verification_equation (1 : ZMod L) enc0 hash0 mzero []
    (by rw [nsmul_eq_mul, mul_one, ZMod.natCast_self])
    (fun x => by simp [hash0]) (fun g => by simp [enc0, length_natToBytes])
    (by simp [mzero])

/-- C6: determinism with no hidden state: two invocations with
byte-identical digests and byte-identical passwords produce byte-identical
64-byte outputs, for any initial contents of the local 96-byte buffer and
of the 64-byte output buffer. -/
theorem sign_deterministic (hash smbe : List ℕ → List ℕ)
    (b0 b0' s0 s0' m1 m2 pw1 pw2 : List ℕ)
    (hH : ∀ x, (hash x).length = 64) (hS : ∀ x, (smbe x).length = 32)
    (hm : m1.length = 32) (hb : b0.length = 96) (hb' : b0'.length = 96)
    (hs : s0.length = 64) (hs' : s0'.length = 64)
    (hmeq : m1 = m2) (hpw : pw1 = pw2) :
    signSm hash smbe b0 s0 m1 pw1 = signSm hash smbe b0' s0' m2 pw2 := by
  subst hmeq; subst hpw
  have hn : nonceRed hash b0 m1 pw1 = nonceRed hash b0' m1 pw1 := by
    rw [nonceRed, nonceRed, nonceHash_eq hH hm hb, nonceHash_eq hH hm hb']
  have hh : hramRed hash smbe b0 m1 pw1 = hramRed hash smbe b0' m1 pw1 := by
    rw [hramRed, hramRed, hramInput_eq hH hS hm hb,
      hramInput_eq hH hS hm hb', hn]
  rw [signSm_eq hH hS hm hb (by omega), signSm_eq hH hS hm hb' (by omega),
    hn, hh, List.drop_eq_nil_of_le (by omega),
    List.drop_eq_nil_of_le (by omega)]

/-- Witness for C6: equal inputs, different initial buffer junk. -/
theorem sign_deterministic_witness :
    signSm hash0 smbe0 (List.replicate 96 0) (List.replicate 64 0)
        mzero [7, 7]
      = signSm hash0 smbe0 (List.replicate 96 255) (List.replicate 64 1)
          mzero [7, 7] :=
  sign_deterministic hash0 smbe0 (List.replicate 96 0)
    (List.replicate 96 255) (List.replicate 64 0) (List.replicate 64 1)
    mzero mzero [7, 7] [7, 7] (fun x => by simp [hash0])
    (fun x => by simp [smbe0, length_natToBytes]) (by simp [mzero])
    (by simp) (by simp) (by simp) (by simp) rfl rfl

/-- C9: totality and in-bounds accesses: for every password (any length,
including empty) and every 32-byte digest the routine produces a 64-byte
signature, every intermediate state of the 96-byte buffer keeps length 96
(each `memmove`/store span fits), the nonce hash reads exactly 64 bytes and
the challenge hash exactly 96. -/
theorem sign_total_inbounds (hash smbe : List ℕ → List ℕ) (m pw : List ℕ)
    (hH : ∀ x, (hash x).length = 64) (hS : ∀ x, (smbe x).length = 32)
    (hm : m.length = 32) :
    (buffMsg (List.replicate 96 0) m).length = 96 ∧
    (buffPref hash (List.replicate 96 0) m pw).length = 96 ∧
    (((buffPref hash (List.replicate 96 0) m pw).drop 32).take 64).length
      = 64 ∧
    (buffA hash smbe (List.replicate 96 0) m pw).length = 96 ∧
    (buffR hash smbe (List.replicate 96 0) m pw).length = 96 ∧
    (hramInput hash smbe (List.replicate 96 0) m pw).length = 96 ∧
    (sign hash smbe m pw).length = 64 := by
  refine ⟨?_, ?_, ?_, ?_, ?_, ?_, ?_⟩
  · rw [buffMsg_eq hm (by simp)]; simp [hm]
  · rw [buffPref_eq hH hm (by simp)]; simp [hH pw, hm]
  · rw [buffPref_eq hH hm (by simp)]; simp [hH pw, hm]
  · rw [buffA_eq hH hS hm (by simp)]; simp [hS, hm]
  · exact length_buffR hH hS hm (by simp)
  · rw [hramInput_eq hH hS hm (by simp)]; simp [hS, hm]
  · rw [sign_eq hH hS hm]; simp [hS, length_sc_muladd]

/-- Witness for C9 at the concrete collaborator instances. -/
theorem sign_total_inbounds_witness :
    (buffMsg (List.replicate 96 0) mzero).length = 96 ∧
    (buffPref hash0 (List.replicate 96 0) mzero []).length = 96 ∧
    (((buffPref hash0 (List.replicate 96 0) mzero []).drop 32).take 64).length
      = 64 ∧
    (buffA hash0 smbe0 (List.replicate 96 0) mzero []).length = 96 ∧
    (buffR hash0 smbe0 (List.replicate 96 0) mzero []).length = 96 ∧
    (hramInput hash0 smbe0 (List.replicate 96 0) mzero []).length = 96 ∧
    (sign hash0 smbe0 mzero []).length = 64 :=
  sign_total_inbounds hash0 smbe0 mzero [] (fun x => by simp [hash0])
    (fun x => by simp [smbe0, length_natToBytes]) (by simp [mzero])

/-- C10: frame property on the output buffer: writing the signature into a
caller buffer `sm0` of length at least 64 changes only bytes 0..63 — the
tail beyond index 63 is untouched, the length is preserved, and the first
64 bytes are exactly the signature.  The digest and password are inputs of
the pure embedding and are never written. -/
theorem sign_frame (hash smbe : List ℕ → List ℕ) (sm0 m pw : List ℕ)
    (hH : ∀ x, (hash x).length = 64) (hS : ∀ x, (smbe x).length = 32)
    (hm : m.length = 32) (hsm : 64 ≤ sm0.length) :
    (signSm hash smbe (List.replicate 96 0) sm0 m pw).drop 64
      = sm0.drop 64 ∧
    (signSm hash smbe (List.replicate 96 0) sm0 m pw).take 64
      = sign hash smbe m pw ∧
    (signSm hash smbe (List.replicate 96 0) sm0 m pw).length
      = sm0.length := by
  refine ⟨?_, ?_, ?_⟩
  · rw [signSm_eq hH hS hm (by simp) hsm, show (64:ℕ) = 32 + 32 from rfl,
      ← List.drop_drop, List.drop_left' (hS _),
      List.drop_left' (length_sc_muladd _ _ _)]
  · rw [signSm_eq hH hS hm (by simp) hsm, sign_eq hH hS hm,
      List.take_append_eq_append_take,
      List.take_of_length_le (by rw [hS]; norm_num),
      hS, show (64 - 32 : ℕ) = 32 from rfl,
      List.take_left' (length_sc_muladd _ _ _)]
  · rw [signSm_eq hH hS hm (by simp) hsm]
    simp [hS, length_sc_muladd]
    omega

/-- Witness for C10 with a 70-byte caller buffer. -/
theorem sign_frame_witness :
    (signSm hash0 smbe0 (List.replicate 96 0) (List.replicate 70 9)
        mzero []).drop 64
      = (List.replicate 70 9).drop 64 ∧
    (signSm hash0 smbe0 (List.replicate 96 0) (List.replicate 70 9)
        mzero []).take 64
      = sign hash0 smbe0 mzero [] ∧
    (signSm hash0 smbe0 (List.replicate 96 0) (List.replicate 70 9)
        mzero []).length
      = (List.replicate 70 9).length :=
  sign_frame hash0 smbe0 (List.replicate 70 9) mzero []
    (fun x => by simp [hash0])
    (fun x => by simp [smbe0, length_natToBytes]) (by simp [mzero])
    (by simp)
